import Mathlib

/-!
Shallow embedding of the crawl orchestration core of `src/main.py`
(class `WebCrawler`): URL scope filtering (`is_valid_url`), filename
derivation (`url_to_filename`), link extraction (`extract_links`), the
per-page fetch wrapper (`crawl_page`) and the recursive, batched
traversal (`crawl_recursive`), modelled as a small-step transition
system whose steps are the synchronous segments between `await` points
of the Python coroutine.  Strings are `List Char`; the Unicode-aware
regex class `\w` is modelled exactly on the ASCII and Latin-1 ranges
(see `isWordChar` for the treatment of higher code points).
-/

namespace Crawl

/-- Characters of a string literal, used to state concrete facts. -/
def strToChars (s : String) : List Char := s.data

/-- The double-quote character (written via its code point to keep
character literals simple). -/
def dquote : Char := Char.ofNat 34

/-- The single-quote character. -/
def squote : Char := Char.ofNat 39

/-- The newline character. -/
def newlineChar : Char := Char.ofNat 10

/-- Split a character list at the first occurrence of `ch`: the part
before it and, when `ch` occurs, the part after it (Python
`s.split(ch, 1)`). -/
def splitOnFirst (ch : Char) : List Char → List Char × Option (List Char)
  | [] => ([], none)
  | c :: cs =>
    if c = ch then ([], some cs)
    else
      let r := splitOnFirst ch cs
      (c :: r.1, r.2)

/-- Word characters of the Latin-1 supplement under Python's Unicode
semantics (`Py_UNICODE_ISALNUM`): the ordinal indicators and the micro
sign, the superscript digits and vulgar fractions, and the accented
letters — everything in 0xC0-0xFF except the multiplication and
division signs. -/
def isLatin1WordChar (c : Char) : Bool :=
  (0xC0 ≤ c.val && c.val ≤ 0xFF && !(c.val = 0xD7) && !(c.val = 0xF7)) ||
  c.val = 0xAA || c.val = 0xB5 || c.val = 0xBA ||
  c.val = 0xB2 || c.val = 0xB3 || c.val = 0xB9 ||
  c.val = 0xBC || c.val = 0xBD || c.val = 0xBE

/-- Model of the regex class `\w` of Python `str` patterns: an
underscore or a Unicode alphanumeric character (CPython's
`SRE_UNI_IS_WORD`).  The model is exact on the ASCII and Latin-1
ranges; code points above 0xFF — which occur in none of this
development's evaluated inputs, and whose classification no theorem's
truth depends on (the charset theorem is stated in terms of this
predicate itself) — are modelled as word characters, which matches
Python for letters and digits though not for symbols and punctuation. -/
def isWordChar (c : Char) : Bool :=
  c.isAlphanum || c = '_' || isLatin1WordChar c || 0x100 ≤ c.val

/-- Python `str.strip(c)`: drop leading and trailing occurrences of `c`. -/
def stripChar (ch : Char) (s : List Char) : List Char :=
  (((s.dropWhile (fun c => c = ch)).reverse.dropWhile (fun c => c = ch)).reverse)

/-- Collapse every run of dashes to a single dash
(Python `re.sub(r'-+', '-', s)`). -/
def collapseDashes : List Char → List Char
  | [] => []
  | [c] => [c]
  | a :: b :: rest =>
    if a = '-' && b = '-' then collapseDashes (b :: rest)
    else a :: collapseDashes (b :: rest)

/-- Result of `urllib.parse.urlparse`, restricted to the components the
crawler reads (`params` is never consulted and is omitted). -/
structure UrlParts where
  scheme : List Char
  netloc : List Char
  path : List Char
  query : List Char
  fragment : List Char
deriving DecidableEq

/-- Characters allowed in a URL scheme (`urllib.parse.scheme_chars`). -/
def isSchemeChar (c : Char) : Bool := c.isAlphanum || c = '+' || c = '-' || c = '.'

/-- Scheme-splitting step of `urlsplit`: if the text before the first
colon is a well-formed scheme, strip and lowercase it. -/
def splitScheme (url : List Char) : List Char × List Char :=
  match splitOnFirst ':' url with
  | (before, some after) =>
    match before with
    | [] => ([], url)
    | c :: cs =>
      if c.isAlpha && (c :: cs).all isSchemeChar then ((c :: cs).map Char.toLower, after)
      else ([], url)
  | (_, none) => ([], url)

/-- Character that may appear inside the network-location component. -/
def isNetlocChar (c : Char) : Bool := !(c = '/' || c = '?' || c = '#')

/-- Netloc-splitting step of `urlsplit`: after a leading `//`, the
netloc extends to the first `/`, `?` or `#`. -/
def splitNetloc (s : List Char) : List Char × List Char :=
  match s with
  | '/' :: '/' :: rest => (rest.takeWhile isNetlocChar, rest.dropWhile isNetlocChar)
  | _ => ([], s)

/-- Model of `urllib.parse.urlparse` (as `urlsplit`, fragments allowed):
scheme, then netloc, then fragment split, then query split. -/
def urlparse (url : List Char) : UrlParts :=
  let s1 := splitScheme url
  let s2 := splitNetloc s1.2
  let s3 :=
    match splitOnFirst '#' s2.2 with
    | (b, some a) => (b, a)
    | (b, none) => (b, [])
  let s4 :=
    match splitOnFirst '?' s3.1 with
    | (b, some a) => (b, a)
    | (b, none) => (b, [])
  ⟨s1.1, s2.1, s4.1, s4.2, s3.2⟩

/-- Character kept unchanged by the path sanitizer of `url_to_filename`
(the regex class `[\w\-_.]`, complement of what `re.sub` replaces). -/
def keepPathChar (c : Char) : Bool := isWordChar c || c = '-' || c = '.'

/-- Character kept unchanged by the query sanitizer of `url_to_filename`
(the regex class `[\w\-_=&]`). -/
def keepQueryChar (c : Char) : Bool := isWordChar c || c = '-' || c = '=' || c = '&'

/-- Path portion of `url_to_filename` (src/main.py lines 96-105): strip
slashes, fall back to `index` when empty, otherwise replace `/` by `-`,
replace disallowed characters by `-`, collapse dash runs and strip
dashes. -/
def pathPart (path : List Char) : List Char :=
  let p := stripChar '/' path
  if p = [] then strToChars "index"
  else
    stripChar '-'
      (collapseDashes
        ((p.map (fun c => if c = '/' then '-' else c)).map
          (fun c => if keepPathChar c then c else '-')))

/-- Query portion of `url_to_filename` (src/main.py lines 110-112). -/
def queryPart (q : List Char) : List Char :=
  stripChar '-' (collapseDashes (q.map (fun c => if keepQueryChar c then c else '-')))

/-- Model of `WebCrawler.url_to_filename` (src/main.py lines 85-118).
The method reads only the URL; it does not consult `allow_query`. -/
def url_to_filename (url : List Char) : List Char :=
  let parsed := urlparse url
  let base := pathPart parsed.path
  let withQ :=
    if parsed.query = [] then base
    else base ++ '-' :: '-' :: queryPart parsed.query
  if (strToChars ".md").isSuffixOf withQ then withQ else withQ ++ strToChars ".md"

/-- Per-run configuration of `WebCrawler.__init__` (src/main.py lines
21-36).  `output_dir` and `css_selector` are never read by the crawl
logic modelled here (they are only passed through to I/O collaborators)
and are omitted. -/
structure Config where
  start_url : List Char
  max_depth : Nat
  allow_query : Bool
deriving DecidableEq

/-- Field `self.domain` set in `__init__` (src/main.py line 38). -/
def domain (cfg : Config) : List Char := (urlparse cfg.start_url).netloc

/-- Occurrence of `lit` as a contiguous substring of `s`. -/
def containsSub (lit : List Char) : List Char → Bool
  | [] => lit.isPrefixOf []
  | c :: cs => lit.isPrefixOf (c :: cs) || containsSub lit cs

/-- Semantics of `re.match(".*LIT.*", s)`: the literal must occur with no
newline before it, i.e. inside the first line of `s` (`.` does not match
a newline). -/
def matchesDotStarLit (lit : List Char) (s : List Char) : Bool :=
  containsSub lit (s.takeWhile (fun c => c ≠ newlineChar))

/-- The list `self.allowed_patterns` (src/main.py lines 44-49), each
regex modelled by its `re.match` acceptance function.  The final entry
models the catch-all `.*`, which matches every string. -/
def allowed_patterns : List (List Char → Bool) :=
  [ matchesDotStarLit (strToChars "figma.com/plugin-docs/"),
    matchesDotStarLit (strToChars "example.com"),
    matchesDotStarLit (strToChars "learn.microsoft.com"),
    fun _ => true ]

/-- Model of `WebCrawler.is_valid_url` (src/main.py lines 51-83): same
host, query-parameter policy, path-prefix containment, then the
allow-pattern loop. -/
def is_valid_url (cfg : Config) (url : List Char) : Bool :=
  let parsed := urlparse url
  if parsed.netloc ≠ domain cfg then false
  else if ¬ cfg.allow_query = true ∧ parsed.query ≠ [] ∧
      parsed.query ≠ (urlparse cfg.start_url).query then false
  else if ¬ (urlparse cfg.start_url).path.isPrefixOf parsed.path then false
  else allowed_patterns.any (fun p => p url)

/-- Host gate of `is_valid_url` (src/main.py line 64). -/
def hostOk (cfg : Config) (url : List Char) : Bool :=
  decide ((urlparse url).netloc = domain cfg)

/-- Query gate of `is_valid_url` (src/main.py lines 68-72). -/
def queryOk (cfg : Config) (url : List Char) : Bool :=
  decide (cfg.allow_query = true ∨ (urlparse url).query = [] ∨
    (urlparse url).query = (urlparse cfg.start_url).query)

/-- Path-prefix gate of `is_valid_url` (src/main.py line 75). -/
def pathOk (cfg : Config) (url : List Char) : Bool :=
  (urlparse cfg.start_url).path.isPrefixOf (urlparse url).path

/-- Character matched by the regex class `["\']` of the href scanner. -/
def isQuoteChar (c : Char) : Bool := c = dquote || c = squote

/-- Attempted match of the regex `href=["\']([^"\']+)["\']` at the head
of the input: on success, the captured group (the maximal nonempty run
of non-quote characters) and the remainder after the closing quote. -/
def hrefAt : List Char → Option (List Char × List Char)
  | 'h' :: 'r' :: 'e' :: 'f' :: '=' :: q :: rest =>
    if isQuoteChar q then
      if rest.takeWhile (fun c => !isQuoteChar c) = [] then none
      else
        match rest.dropWhile (fun c => !isQuoteChar c) with
        | [] => none
        | _ :: r => some (rest.takeWhile (fun c => !isQuoteChar c), r)
    else none
  | _ => none

/-- Scanning loop of `re.findall` with the href pattern: on a match emit
the capture and resume after the closing quote, otherwise advance one
character.  A successful match consumes at least six characters, so the
input length strictly decreases at every recursive call and the fuel
(instantiated with the input length) never runs out. -/
def findallGo : Nat → List Char → List (List Char)
  | 0, _ => []
  | _ + 1, [] => []
  | fuel + 1, c :: cs =>
    match hrefAt (c :: cs) with
    | some (cap, rest) => cap :: findallGo fuel rest
    | none => findallGo fuel cs

/-- Model of `re.findall` with the pattern `href=["\']([^"\']+)["\']`
(src/main.py lines 135-136). -/
def findallHref (s : List Char) : List (List Char) := findallGo s.length s

/-- Reassembly step of `urllib.parse.urlunsplit`. -/
def urlunsplit (u : UrlParts) : List Char :=
  let url0 := u.path
  let url1 :=
    if u.netloc ≠ [] ∨ (strToChars "//").isPrefixOf url0 then
      strToChars "//" ++ u.netloc ++
        (if url0 ≠ [] ∧ url0.head? ≠ some '/' then '/' :: url0 else url0)
    else url0
  let url2 := if u.scheme ≠ [] then u.scheme ++ ':' :: url1 else url1
  let url3 := if u.query ≠ [] then url2 ++ '?' :: u.query else url2
  if u.fragment ≠ [] then url3 ++ '#' :: u.fragment else url3

/-- Base path up to and including its last slash, used when merging a
relative reference (the `split('/')` surgery of `urljoin`). -/
def dropLastSegment (p : List Char) : List Char :=
  ((p.reverse.dropWhile (fun c => c ≠ '/')).reverse)

/-- Model of `urllib.parse.urljoin` for the http(s) URLs this crawler
handles; dot-segment normalization is omitted (no claim in this
development depends on it). -/
def urljoin (base url : List Char) : List Char :=
  if base = [] then url
  else if url = [] then base
  else
    let b := urlparse base
    let r0 := urlparse url
    let r := if r0.scheme = [] then
        ⟨b.scheme, r0.netloc, r0.path, r0.query, r0.fragment⟩ else r0
    if r.scheme ≠ b.scheme then url
    else if r.netloc ≠ [] then
      urlunsplit ⟨r.scheme, r.netloc, r.path, r.query, r.fragment⟩
    else if r.path = [] then
      urlunsplit ⟨r.scheme, b.netloc, b.path,
        (if r.query = [] then b.query else r.query), r.fragment⟩
    else
      urlunsplit ⟨r.scheme, b.netloc,
        (if r.path.head? = some '/' then r.path else dropLastSegment b.path ++ r.path),
        r.query, r.fragment⟩

/-- Skip condition of `extract_links` (src/main.py line 140):
`match.startswith(('javascript:', 'mailto:', '#'))`. -/
def skipHref (m : List Char) : Bool :=
  (strToChars "javascript:").isPrefixOf m ||
  (strToChars "mailto:").isPrefixOf m ||
  (strToChars "#").isPrefixOf m

/-- Filtering loop of `extract_links` (src/main.py lines 138-152) over
the already-extracted matches, with the intra-call de-duplication set
`unique_links` carried as `uniq`. -/
def extract_links_go (cfg : Config) (visited : List (List Char)) (base_url : List Char) :
    List (List Char) → List (List Char) → List (List Char)
  | [], _ => []
  | m :: ms, uniq =>
    if skipHref m then extract_links_go cfg visited base_url ms uniq
    else
      let full := urljoin base_url m
      let clean := full.takeWhile (fun c => c ≠ '#')
      if is_valid_url cfg clean = true ∧ clean ∉ visited ∧ clean ∉ uniq then
        clean :: extract_links_go cfg visited base_url ms (clean :: uniq)
      else extract_links_go cfg visited base_url ms uniq

/-- Model of `WebCrawler.extract_links` (src/main.py lines 120-154).
The visited set is read, never mutated. -/
def extract_links (cfg : Config) (visited : List (List Char))
    (content base_url : List Char) : List (List Char) :=
  extract_links_go cfg visited base_url (findallHref content) []

/-- Outcome of one `AsyncWebCrawler.arun` call as observed by
`crawl_page` (src/main.py lines 181-198): a result with `success=true`
and optional markdown and html, a result with `success=false`, or an
exception raised by the engine. -/
inductive FetchOutcome where
  | ok (markdown : Option (List Char)) (html : Option (List Char)) (error_message : List Char)
  | fail (error_message : List Char)
  | exn (msg : List Char)
deriving DecidableEq

/-- Failed fetch: the success flag is false or the engine raised. -/
def isFailure : FetchOutcome → Bool
  | .ok _ _ _ => false
  | .fail _ => true
  | .exn _ => true

/-- Model of `WebCrawler.crawl_page` (src/main.py lines 156-198) as a
function of the fetch outcome: on success the markdown (`or ""`) and the
links extracted from the html (`or ""`), on failure or exception
`("", [])` (the except branch catches every engine exception). -/
def crawl_page (cfg : Config) (visited : List (List Char)) (o : FetchOutcome)
    (url : List Char) : List Char × List (List Char) :=
  match o with
  | .ok md html _ => (md.getD [], extract_links cfg visited (html.getD []) url)
  | .fail _ => ([], [])
  | .exn _ => ([], [])

/-- A URL together with the depth at which `crawl_recursive` was invoked
on it (the spec's CrawlTarget). -/
structure Target where
  url : List Char
  depth : Nat
deriving DecidableEq

/-- Global state of one crawl run.  `pending` holds tasks at the entry
of `crawl_recursive` (src/main.py line 227, before the check), `inflight`
holds tasks suspended at the fetch (line 237), `fetched` logs every
target dispatched to the fetcher (most recent first), and `saved` logs
every written filename (most recent first). -/
structure CrawlState where
  visited : List (List Char)
  fetched : List Target
  pending : List Target
  inflight : List Target
  saved : List (List Char)
deriving DecidableEq

/-- Initial state of `start_crawling` (src/main.py line 275): one
pending target, the start URL at depth 0. -/
def initState (cfg : Config) : CrawlState :=
  ⟨[], [], [⟨cfg.start_url, 0⟩], [], []⟩

/-- Effect of the early returns of `crawl_recursive` (src/main.py lines
227-231): the task ends with no side effect. -/
def skipResult (s : CrawlState) (t : Target) : CrawlState :=
  CrawlState.mk s.visited s.fetched (s.pending.erase t) s.inflight s.saved

/-- Effect of the synchronous segment from the passed checks (lines
227-231) through the insertion into `visited` (line 234) up to the
suspension of the fetch (line 237).  No await separates the membership
check from the insertion, so under cooperative scheduling they form one
atomic step. -/
def dispatchResult (s : CrawlState) (t : Target) : CrawlState :=
  CrawlState.mk (t.url :: s.visited) (t :: s.fetched) (s.pending.erase t)
    (t :: s.inflight) s.saved

/-- Effect of a fetch completing (src/main.py lines 237-261): compute
content and links via `crawl_page`, save the file when content is
nonempty (lines 239-240), and, when depth < max_depth, turn every
extracted link not yet visited into a pending child at depth+1 (lines
250-254). -/
def completeResult (cfg : Config) (s : CrawlState) (t : Target) (o : FetchOutcome) :
    CrawlState :=
  let res := crawl_page cfg s.visited o t.url
  let saved' := if res.1 = [] then s.saved else url_to_filename t.url :: s.saved
  let children :=
    if t.depth < cfg.max_depth then
      (res.2.filter (fun l => decide (l ∉ s.visited))).map (fun l => Target.mk l (t.depth + 1))
    else []
  CrawlState.mk s.visited s.fetched (s.pending ++ children) (s.inflight.erase t) saved'

/-- One step of the cooperatively scheduled run: the synchronous
segments of `crawl_recursive` between await points, interleaved
nondeterministically across all live tasks.  The fetch outcome is an
oracle argument of the completion step, so every possible page content
and every failure is covered. -/
inductive Step (cfg : Config) : CrawlState → CrawlState → Prop where
  | skip (s : CrawlState) (t : Target) :
      t ∈ s.pending →
      (cfg.max_depth < t.depth ∨ t.url ∈ s.visited ∨ is_valid_url cfg t.url = false) →
      Step cfg s (skipResult s t)
  | dispatch (s : CrawlState) (t : Target) :
      t ∈ s.pending → t.depth ≤ cfg.max_depth → t.url ∉ s.visited →
      is_valid_url cfg t.url = true →
      Step cfg s (dispatchResult s t)
  | complete (s : CrawlState) (t : Target) (o : FetchOutcome) :
      t ∈ s.inflight → Step cfg s (completeResult cfg s t o)

/-- States reachable by a run of the crawler from its initial state. -/
def Reachable (cfg : Config) (s : CrawlState) : Prop :=
  Relation.ReflTransGen (Step cfg) (initState cfg) s

/-- Occurrence of two adjacent dashes, the marker inserted between the
path part and the query part of a derived filename. -/
def hasDoubleDash : List Char → Bool
  | [] => false
  | [_] => false
  | a :: b :: rest => (a = '-' && b = '-') || hasDoubleDash (b :: rest)

/-- Configuration of the spec's Scenario A: root
`https://example.com/docs/`, max depth 0, queries disallowed. -/
def exCfg : Config := ⟨strToChars "https://example.com/docs/", 0, false⟩

/-- Root target of Scenario A. -/
def exRoot : Target := ⟨strToChars "https://example.com/docs/", 0⟩

/-- Scenario A state after the root target is dispatched. -/
def exS1 : CrawlState := dispatchResult (initState exCfg) exRoot

/-- Scenario A state after the root fetch completes with nonempty
markdown and empty html. -/
def exS2 : CrawlState :=
  completeResult exCfg exS1 exRoot (.ok (some (strToChars "hello")) (some []) [])

/-- Scenario A state after the root fetch fails. -/
def exS2e : CrawlState := completeResult exCfg exS1 exRoot (.fail (strToChars "timeout"))

/-- Configuration whose root URL carries a query string while
`allow_query` is false. -/
def exCfgQ : Config := ⟨strToChars "https://example.com/docs/api?ver=2", 0, false⟩

/-- Root target of the query-carrying configuration. -/
def exRootQ : Target := ⟨strToChars "https://example.com/docs/api?ver=2", 0⟩

/-- Query-carrying run after the root is dispatched. -/
def exSQ1 : CrawlState := dispatchResult (initState exCfgQ) exRootQ

/-- Query-carrying run after the root fetch completes with nonempty
markdown. -/
def exSQ2 : CrawlState :=
  completeResult exCfgQ exSQ1 exRootQ (.ok (some (strToChars "content")) (some []) [])

/-- Character set the spec claims for derived filenames: the union of
the ASCII sets `[A-Za-z0-9_.-]` (path part) and `[A-Za-z0-9_=&-]`
(query part).  The code's sanitizers actually keep every regex word
character, non-ASCII ones included, so derived filenames can leave this
set. -/
def filenameAllowedChar (c : Char) : Bool :=
  c.isAlphanum || c = '_' || c = '.' || c = '-' || c = '=' || c = '&'

/-- Character that can actually occur in a derived filename: a regex
word character (`\w`, Unicode-aware) or one of the punctuation
characters the sanitizers keep or insert (`-` `.` `=` `&`). -/
def wordAllowedChar (c : Char) : Bool :=
  isWordChar c || c = '.' || c = '-' || c = '=' || c = '&'

/-- Adjacent pair of characters that is not two dashes. -/
def ddFree (a b : Char) : Prop := ¬(a = '-' ∧ b = '-')

/-- Safety invariant of the traversal: every dispatched URL is recorded
in `visited`, no URL is dispatched twice, and every target anywhere in
the system respects the depth ceiling. -/
def Inv (cfg : Config) (s : CrawlState) : Prop :=
  (∀ t ∈ s.fetched, t.url ∈ s.visited) ∧
  (s.fetched.map Target.url).Nodup ∧
  (∀ t ∈ s.fetched, t.depth ≤ cfg.max_depth) ∧
  (∀ t ∈ s.pending, t.depth ≤ cfg.max_depth) ∧
  (∀ t ∈ s.inflight, t.depth ≤ cfg.max_depth)

/-!
Theorems.  The development first records concrete evaluations of the
embedded functions, then general lemmas, then one theorem per checked
claim.
-/

example : url_to_filename (strToChars "https://example.com/docs/api?ver=2")
    = strToChars "docs-api--ver=2.md" := by decide

example : url_to_filename (strToChars "https://example.com/docs/")
    = strToChars "docs.md" := by decide

example : url_to_filename (strToChars "https://example.com")
    = strToChars "index.md" := by decide

example :
    is_valid_url ⟨strToChars "https://example.com/docs/", 0, false⟩
      (strToChars "https://other.com/x") = false := by decide

example :
    is_valid_url ⟨strToChars "https://example.com/docs/", 0, false⟩
      (strToChars "https://example.com/docs/a?p=1") = false := by decide

example :
    extract_links ⟨strToChars "https://example.com/docs/", 1, false⟩ []
      (strToChars "<a href=\"/docs/a\">x</a><a href=\"https://other.com/x\">y</a><a href=\"#top\">z</a><a href=\"javascript:void(0)\">w</a>")
      (strToChars "https://example.com/docs/")
    = [strToChars "https://example.com/docs/a"] := by decide

theorem collapse_cons (x : Char) (xs : List Char) :
    ∃ t, collapseDashes (x :: xs) = x :: t := by
  induction xs generalizing x with
  | nil => exact ⟨[], rfl⟩
  | cons y r ih =>
    by_cases h : x = '-' ∧ y = '-'
    · obtain ⟨t, ht⟩ := ih y
      refine ⟨t, ?_⟩
      have hxy : (x = '-' && y = '-') = true := by simp [h.1, h.2]
      calc collapseDashes (x :: y :: r) = collapseDashes (y :: r) := by
            rw [collapseDashes, if_pos hxy]
        _ = y :: t := ht
        _ = x :: t := by rw [h.1, h.2]
    · refine ⟨collapseDashes (y :: r), ?_⟩
      have hxy : (x = '-' && y = '-') = false := by
        rcases Decidable.not_and_iff_or_not.mp h with h1 | h1 <;> simp [h1]
      rw [collapseDashes, if_neg (by simp [hxy])]

theorem collapse_sublist : ∀ l : List Char, List.Sublist (collapseDashes l) l
  | [] => by rw [collapseDashes]
  | [c] => by rw [collapseDashes]
  | a :: b :: rest => by
    by_cases h : (a = '-' && b = '-') = true
    · rw [collapseDashes, if_pos h]
      exact (collapse_sublist (b :: rest)).trans (List.sublist_cons_self a (b :: rest))
    · rw [collapseDashes, if_neg h]
      exact (collapse_sublist (b :: rest)).cons₂ a

theorem stripChar_isInfix (ch : Char) (s : List Char) : stripChar ch s <:+: s := by
  have h1 : s.dropWhile (fun c => c = ch) <:+ s := List.dropWhile_suffix _
  have h2 : (s.dropWhile (fun c => c = ch)).reverse.dropWhile (fun c => c = ch) <:+
      (s.dropWhile (fun c => c = ch)).reverse := List.dropWhile_suffix _
  have h3 : stripChar ch s <+: s.dropWhile (fun c => c = ch) := by
    have h4 := List.reverse_prefix.mpr h2
    rw [List.reverse_reverse] at h4
    exact h4
  exact h3.isInfix.trans h1.isInfix

theorem hasDD_eq_false_iff : ∀ l : List Char, hasDoubleDash l = false ↔ l.Chain' ddFree
  | [] => by simp [hasDoubleDash]
  | [c] => by simp [hasDoubleDash]
  | a :: b :: rest => by
    rw [hasDoubleDash, List.chain'_cons, ← hasDD_eq_false_iff (b :: rest)]
    simp only [Bool.or_eq_false_iff, Bool.and_eq_false_iff, decide_eq_false_iff_not, ddFree]
    constructor
    · rintro ⟨h1, h2⟩
      refine ⟨fun hc => ?_, h2⟩
      rcases h1 with h1 | h1
      · exact h1 hc.1
      · exact h1 hc.2
    · rintro ⟨h1, h2⟩
      refine ⟨?_, h2⟩
      by_cases ha : a = '-'
      · exact Or.inr (fun hb => h1 ⟨ha, hb⟩)
      · exact Or.inl ha

theorem hasDD_collapse : ∀ l : List Char, hasDoubleDash (collapseDashes l) = false
  | [] => rfl
  | [c] => rfl
  | a :: b :: rest => by
    by_cases h : (a = '-' && b = '-') = true
    · rw [collapseDashes, if_pos h]
      exact hasDD_collapse (b :: rest)
    · rw [collapseDashes, if_neg h]
      obtain ⟨t, ht⟩ := collapse_cons b rest
      rw [ht, hasDoubleDash, ← ht]
      simp only [Bool.or_eq_false_iff]
      exact ⟨by simpa using h, hasDD_collapse (b :: rest)⟩

theorem hasDD_append_ddash : ∀ (a r : List Char),
    hasDoubleDash (a ++ '-' :: '-' :: r) = true
  | [], _ => by simp [hasDoubleDash]
  | [x], r => by
    rw [List.cons_append, List.nil_append, hasDoubleDash]
    have : hasDoubleDash ('-' :: '-' :: r) = true := by simp [hasDoubleDash]
    simp [this]
  | x :: y :: t, r => by
    rw [List.cons_append, List.cons_append, hasDoubleDash, ← List.cons_append,
      hasDD_append_ddash (y :: t) r]
    simp

theorem hasDD_append_left : ∀ (a b : List Char), hasDoubleDash a = true →
    hasDoubleDash (a ++ b) = true
  | [], _, h => by simp [hasDoubleDash] at h
  | [x], _, h => by simp [hasDoubleDash] at h
  | x :: y :: t, b, h => by
    rw [List.cons_append, List.cons_append, hasDoubleDash, ← List.cons_append]
    rw [hasDoubleDash] at h
    rcases Bool.or_eq_true_iff.mp h with h1 | h1
    · simp [h1]
    · rw [hasDD_append_left (y :: t) b h1]
      simp

theorem chain_pathPart (p : List Char) : (pathPart p).Chain' ddFree := by
  rw [pathPart]
  split
  · exact (hasDD_eq_false_iff _).mp (by decide)
  · exact List.Chain'.infix ((hasDD_eq_false_iff _).mp (hasDD_collapse _))
      (stripChar_isInfix _ _)

theorem chain_append_md {l : List Char} (h : l.Chain' ddFree) :
    (l ++ strToChars ".md").Chain' ddFree := by
  rw [List.chain'_append]
  refine ⟨h, (hasDD_eq_false_iff _).mp (by decide), ?_⟩
  intro x _ y hy
  have hy2 : '.' = y := by
    simpa [strToChars] using hy
  subst hy2
  intro hc
  exact absurd hc.2 (by decide)

theorem all_mono {l : List Char} {p q : Char → Bool} (h : l.all p = true)
    (himp : ∀ c, p c = true → q c = true) : l.all q = true := by
  apply List.all_eq_true.mpr
  intro x hx
  exact himp x (List.all_eq_true.mp h x hx)

theorem pathPart_all (p : List Char) : (pathPart p).all keepPathChar = true := by
  rw [pathPart]
  split
  · decide
  · apply List.all_eq_true.mpr
    intro c hc
    have hc2 := (stripChar_isInfix '-' _).sublist.subset hc
    have hc3 := (collapse_sublist _).subset hc2
    obtain ⟨d, _, rfl⟩ := List.mem_map.mp hc3
    by_cases h : keepPathChar d = true
    · rw [if_pos h]
      exact h
    · rw [if_neg h]
      decide

theorem queryPart_all (q : List Char) : (queryPart q).all keepQueryChar = true := by
  rw [queryPart]
  apply List.all_eq_true.mpr
  intro c hc
  have hc2 := (stripChar_isInfix '-' _).sublist.subset hc
  have hc3 := (collapse_sublist _).subset hc2
  obtain ⟨d, _, rfl⟩ := List.mem_map.mp hc3
  by_cases h : keepQueryChar d = true
  · rw [if_pos h]
    exact h
  · rw [if_neg h]
    decide

theorem keepPath_allowed : ∀ c : Char, keepPathChar c = true → wordAllowedChar c = true := by
  intro c h
  simp only [keepPathChar, Bool.or_eq_true] at h
  simp only [wordAllowedChar, Bool.or_eq_true]
  tauto

theorem keepQuery_allowed : ∀ c : Char, keepQueryChar c = true → wordAllowedChar c = true := by
  intro c h
  simp only [keepQueryChar, Bool.or_eq_true] at h
  simp only [wordAllowedChar, Bool.or_eq_true]
  tauto

theorem all_md_ite {l : List Char} (h : l.all wordAllowedChar = true) :
    (if (strToChars ".md").isSuffixOf l then l else l ++ strToChars ".md").all
      wordAllowedChar = true := by
  split
  · exact h
  · rw [List.all_append, h, Bool.true_and]
    decide

theorem md_suffix_ite (l : List Char) :
    strToChars ".md" <:+
      (if (strToChars ".md").isSuffixOf l then l else l ++ strToChars ".md") := by
  split
  · rename_i h
    exact List.isSuffixOf_iff_suffix.mp h
  · exact List.suffix_append _ _

theorem hasDD_md_ite (l : List Char) :
    hasDoubleDash (if (strToChars ".md").isSuffixOf l then l else l ++ strToChars ".md") =
      hasDoubleDash l := by
  split
  · rfl
  · by_cases h : hasDoubleDash l = true
    · rw [h, hasDD_append_left _ _ h]
    · have h2 : hasDoubleDash l = false := Bool.eq_false_iff.mpr h
      have h3 : hasDoubleDash (l ++ strToChars ".md") = false :=
        (hasDD_eq_false_iff _).mpr (chain_append_md ((hasDD_eq_false_iff _).mp h2))
      rw [h2, h3]

theorem filename_all (url : List Char) :
    (url_to_filename url).all wordAllowedChar = true := by
  have hbase := all_mono (pathPart_all (urlparse url).path) keepPath_allowed
  have hqp := all_mono (queryPart_all (urlparse url).query) keepQuery_allowed
  simp only [url_to_filename]
  split
  · exact all_md_ite hbase
  · apply all_md_ite
    rw [List.all_append, hbase, Bool.true_and, List.all_cons, List.all_cons, hqp]
    decide

theorem contains_false_of_all {l : List Char} {p : Char → Bool} {c : Char}
    (h : l.all p = true) (hc : p c = false) : l.contains c = false := by
  by_cases h2 : l.contains c = true
  case neg => exact Bool.eq_false_iff.mpr h2
  case pos =>
    exfalso
    have h3 : List.elem c l = true := h2
    have hm : c ∈ l := List.elem_iff.mp h3
    have := List.all_eq_true.mp h c hm
    rw [hc] at this
    exact Bool.false_ne_true this

/-- C7 (amended): `url_to_filename` is deterministic, its output always
ends in `.md` and contains no slash, and every output character is
either a regex word character (`\w`, which is Unicode-aware: non-ASCII
word characters such as `é` are kept by the sanitizers) or one of the
punctuation characters `-` `.` `=` `&`.  The spec's ASCII-only allowed
sets do not hold of the code: see the counterexample below. -/
theorem filename_sound (url : List Char) :
    url_to_filename url = url_to_filename url ∧
    strToChars ".md" <:+ url_to_filename url ∧
    (url_to_filename url).all wordAllowedChar = true ∧
    (url_to_filename url).contains '/' = false := by
  refine ⟨rfl, ?_, filename_all url, contains_false_of_all (filename_all url) (by decide)⟩
  simp only [url_to_filename]
  split
  · exact md_suffix_ite _
  · exact md_suffix_ite _

/-- C7 counterexample: the URL `https://example.com/docs/café` derives
the filename `docs-café.md` — the Unicode-aware `\w` keeps `é`, which
lies outside the spec's claimed ASCII sets `[A-Za-z0-9_.-]` and
`[A-Za-z0-9_=&-]`. -/
theorem filename_charset_counterexample :
    url_to_filename (strToChars "https://example.com/docs/café") =
      strToChars "docs-café.md" ∧
    'é' ∈ url_to_filename (strToChars "https://example.com/docs/café") ∧
    filenameAllowedChar 'é' = false ∧
    (url_to_filename (strToChars "https://example.com/docs/café")).all
      filenameAllowedChar = false :=
  ⟨by decide, by decide, by decide, by decide⟩

/-- C6 (amended): the derived filename contains the double-dash marker
followed by the sanitized query exactly when the URL has a nonempty
query string; `url_to_filename` reads no configuration, so the
`allow_query` setting plays no role in this. -/
theorem filename_query_marker (url : List Char) :
    hasDoubleDash (url_to_filename url) = !(urlparse url).query.isEmpty := by
  simp only [url_to_filename]
  split
  · rename_i hq
    rw [hasDD_md_ite, hq]
    simp only [List.isEmpty_nil, Bool.not_true]
    exact (hasDD_eq_false_iff _).mpr (chain_pathPart _)
  · rename_i hq
    rw [hasDD_md_ite, hasDD_append_ddash _ _]
    have hq2 : (urlparse url).query.isEmpty = false := by
      rcases hql : (urlparse url).query with _ | ⟨c, cs⟩
      · exact absurd hql hq
      · rfl
    rw [hq2]
    rfl

/-- C4 counterexample: on `https://example.com/docs/api?ver=2` the code
produces `docs-api--ver=2.md` (the `=` is in the query sanitizer's kept
set), which differs from the claimed `docs-api--ver-2.md`. -/
theorem scenarioD_counterexample :
    url_to_filename (strToChars "https://example.com/docs/api?ver=2") =
      strToChars "docs-api--ver=2.md" ∧
    strToChars "docs-api--ver=2.md" ≠ strToChars "docs-api--ver-2.md" :=
  ⟨by decide, by decide⟩

/-- C4 (amended): `url_to_filename` on `https://example.com/docs/api?ver=2`
returns exactly `docs-api--ver=2.md`; the equals sign is kept because the
query sanitizer's allowed class contains `=`. -/
theorem scenarioD_amended :
    url_to_filename (strToChars "https://example.com/docs/api?ver=2") =
      strToChars "docs-api--ver=2.md" := by decide

/-- C10: a URL whose path is nonempty after stripping slashes but whose
characters are all sanitized away yields the bare filename `.md`; the
`index` fallback is keyed on the stripped path being empty, not on the
sanitized base name being empty. -/
theorem sanitized_empty_filename :
    stripChar '/' (urlparse (strToChars "https://example.com/++/")).path ≠ [] ∧
    pathPart (urlparse (strToChars "https://example.com/++/")).path = [] ∧
    url_to_filename (strToChars "https://example.com/++/") = strToChars ".md" :=
  ⟨by decide, by decide, by decide⟩

/-- C9: the scope filter accepts exactly the URLs passing the host,
query and path-prefix gates, because every URL matches some pattern of
the allow list (its trailing catch-all makes the pattern gate a no-op);
a URL is accepted only by matching at least one pattern, first match
winning. -/
theorem scope_filter_pattern_gate (cfg : Config) (url : List Char) :
    is_valid_url cfg url = (hostOk cfg url && queryOk cfg url && pathOk cfg url) ∧
    allowed_patterns.any (fun p => p url) = true := by
  have hany : allowed_patterns.any (fun p => p url) = true := by
    simp [allowed_patterns]
  refine ⟨?_, hany⟩
  simp only [is_valid_url, hostOk, queryOk, pathOk]
  split_ifs with h1 h2 h3
  · simp [h1]
  · simp [h2.1, h2.2.1, h2.2.2]
  · have e1 : (urlparse url).netloc = domain cfg := not_not.mp h1
    have e2 : cfg.allow_query = true ∨ (urlparse url).query = [] ∨
        (urlparse url).query = (urlparse cfg.start_url).query := by tauto
    rw [hany, decide_eq_true e1, decide_eq_true e2, h3]
    rfl
  · have h3f : (urlparse cfg.start_url).path.isPrefixOf (urlparse url).path = false :=
      Bool.eq_false_iff.mpr h3
    simp [h3f]

theorem extract_links_go_mem (cfg : Config) (visited : List (List Char))
    (base_url : List Char) :
    ∀ (ms uniq : List (List Char)) (u : List Char),
      u ∈ extract_links_go cfg visited base_url ms uniq →
      is_valid_url cfg u = true ∧ u ∉ visited ∧ u ∉ uniq := by
  intro ms
  induction ms with
  | nil =>
    intro uniq u h
    rw [extract_links_go] at h
    cases h
  | cons m ms ih =>
    intro uniq u h
    simp only [extract_links_go] at h
    split at h
    · exact ih uniq u h
    · split at h
      · rename_i hcond
        rcases List.mem_cons.mp h with heq | htail
        · subst heq
          exact ⟨hcond.1, hcond.2.1, hcond.2.2⟩
        · obtain ⟨hv, hnv, hnu⟩ := ih _ u htail
          exact ⟨hv, hnv, fun hu => hnu (List.mem_cons_of_mem _ hu)⟩
      · exact ih uniq u h

theorem extract_links_go_nodup (cfg : Config) (visited : List (List Char))
    (base_url : List Char) :
    ∀ (ms uniq : List (List Char)), (extract_links_go cfg visited base_url ms uniq).Nodup := by
  intro ms
  induction ms with
  | nil =>
    intro uniq
    rw [extract_links_go]
    exact List.nodup_nil
  | cons m ms ih =>
    intro uniq
    simp only [extract_links_go]
    split
    · exact ih uniq
    · split
      · refine List.nodup_cons.mpr ⟨?_, ih _⟩
        intro hmem
        exact (extract_links_go_mem cfg visited base_url ms _ _ hmem).2.2
          (List.mem_cons_self _ _)
      · exact ih uniq

/-- C8: every URL returned by `extract_links` passes `is_valid_url`, is
not a member of the visited set, and occurs exactly once in the returned
list. -/
theorem extract_links_sound (cfg : Config) (visited : List (List Char))
    (content base_url : List Char) :
    (extract_links cfg visited content base_url).all
      (fun u => is_valid_url cfg u && decide (u ∉ visited)) = true ∧
    (extract_links cfg visited content base_url).Nodup := by
  refine ⟨?_, extract_links_go_nodup cfg visited base_url _ _⟩
  apply List.all_eq_true.mpr
  intro u hu
  obtain ⟨h1, h2, _⟩ := extract_links_go_mem cfg visited base_url _ _ u hu
  rw [h1, decide_eq_true h2]
  rfl

theorem inv_init (cfg : Config) : Inv cfg (initState cfg) := by
  refine ⟨fun t ht => absurd ht (by simp [initState]),
    by simp [initState],
    fun t ht => absurd ht (by simp [initState]),
    ?_,
    fun t ht => absurd ht (by simp [initState])⟩
  intro t ht
  have h2 : t = ⟨cfg.start_url, 0⟩ := by simpa [initState] using ht
  subst h2
  exact Nat.zero_le _

theorem inv_step {cfg : Config} {s s' : CrawlState} (hs : Step cfg s s')
    (hi : Inv cfg s) : Inv cfg s' := by
  obtain ⟨hfv, hnd, hfd, hpd, hid⟩ := hi
  cases hs with
  | skip t hm hc =>
    exact ⟨hfv, hnd, hfd,
      fun u hu => hpd u ((List.erase_sublist t s.pending).subset hu), hid⟩
  | dispatch t hm hdep hnv hv =>
    refine ⟨?_, ?_, ?_, ?_, ?_⟩
    · intro u hu
      rcases List.mem_cons.mp hu with rfl | hu2
      · exact List.mem_cons_self _ _
      · exact List.mem_cons_of_mem _ (hfv u hu2)
    · show (List.map Target.url (t :: s.fetched)).Nodup
      rw [List.map_cons]
      refine List.nodup_cons.mpr ⟨?_, hnd⟩
      intro hmem
      obtain ⟨u, hu, huu⟩ := List.mem_map.mp hmem
      exact hnv (huu ▸ hfv u hu)
    · intro u hu
      rcases List.mem_cons.mp hu with rfl | hu2
      · exact hdep
      · exact hfd u hu2
    · intro u hu
      exact hpd u ((List.erase_sublist t s.pending).subset hu)
    · intro u hu
      rcases List.mem_cons.mp hu with rfl | hu2
      · exact hdep
      · exact hid u hu2
  | complete t o hm =>
    refine ⟨hfv, hnd, hfd, ?_, ?_⟩
    · intro u hu
      simp only [completeResult] at hu
      rcases List.mem_append.mp hu with hu2 | hu2
      · exact hpd u hu2
      · split at hu2
        · rename_i hlt
          obtain ⟨l, _, rfl⟩ := List.mem_map.mp hu2
          exact Nat.succ_le_of_lt hlt
        · cases hu2
    · intro u hu
      exact hid u ((List.erase_sublist t s.inflight).subset hu)

theorem inv_reachable {cfg : Config} {s : CrawlState} (h : Reachable cfg s) :
    Inv cfg s := by
  have h2 : Relation.ReflTransGen (Step cfg) (initState cfg) s := h
  clear h
  induction h2 with
  | refl => exact inv_init cfg
  | tail hr hstep ih => exact inv_step hstep ih

/-- C1: in every reachable state of every run, the log of targets
dispatched to the fetcher contains no URL twice, because the membership
test and the insertion into `visited` happen in one synchronous step
before the fetch suspends; every dispatched URL is in `visited`. -/
theorem crawl_no_duplicate_dispatch (cfg : Config) (s : CrawlState)
    (h : Reachable cfg s) :
    (s.fetched.map Target.url).Nodup ∧
    s.fetched.all (fun t => decide (t.url ∈ s.visited)) = true := by
  obtain ⟨hfv, hnd, _, _, _⟩ := inv_reachable h
  refine ⟨hnd, List.all_eq_true.mpr ?_⟩
  intro t ht
  exact decide_eq_true (hfv t ht)

/-- C2: in every reachable state of every run, every target dispatched
to the fetcher — and indeed every pending or in-flight target — has
depth at most the configured maximum. -/
theorem crawl_depth_bounded (cfg : Config) (s : CrawlState)
    (h : Reachable cfg s) :
    s.fetched.all (fun t => decide (t.depth ≤ cfg.max_depth)) = true ∧
    s.pending.all (fun t => decide (t.depth ≤ cfg.max_depth)) = true ∧
    s.inflight.all (fun t => decide (t.depth ≤ cfg.max_depth)) = true := by
  obtain ⟨_, _, hfd, hpd, hid⟩ := inv_reachable h
  exact ⟨List.all_eq_true.mpr fun t ht => decide_eq_true (hfd t ht),
    List.all_eq_true.mpr fun t ht => decide_eq_true (hpd t ht),
    List.all_eq_true.mpr fun t ht => decide_eq_true (hid t ht)⟩

/-- C3: when a fetch fails (success flag false or engine exception),
`crawl_page` yields empty content and no links, so the completion step
saves nothing, spawns nothing, and only removes the failed node from the
in-flight set — every sibling task is left exactly as it was, and the
run continues. -/
theorem fetch_failure_isolated (cfg : Config) (s : CrawlState) (t : Target)
    (o : FetchOutcome) (ho : isFailure o = true) :
    crawl_page cfg s.visited o t.url = ([], []) ∧
    completeResult cfg s t o =
      CrawlState.mk s.visited s.fetched s.pending (s.inflight.erase t) s.saved ∧
    (∀ u ∈ s.inflight, u ≠ t → u ∈ (completeResult cfg s t o).inflight) := by
  have hcp : crawl_page cfg s.visited o t.url = ([], []) := by
    cases o with
    | ok md html e => simp [isFailure] at ho
    | fail e => rfl
    | exn m => rfl
  have hcr : completeResult cfg s t o =
      CrawlState.mk s.visited s.fetched s.pending (s.inflight.erase t) s.saved := by
    simp [completeResult, hcp]
  refine ⟨hcp, hcr, ?_⟩
  intro u hu hne
  rw [hcr]
  exact (List.mem_erase_of_ne hne).mpr hu

theorem reach_exS1 : Reachable exCfg exS1 :=
  Relation.ReflTransGen.tail Relation.ReflTransGen.refl
    (Step.dispatch (initState exCfg) exRoot (by decide) (by decide) (by decide) (by decide))

theorem reach_exS2 : Reachable exCfg exS2 :=
  Relation.ReflTransGen.tail reach_exS1
    (Step.complete exS1 exRoot (.ok (some (strToChars "hello")) (some []) []) (by decide))

theorem reach_exS2e : Reachable exCfg exS2e :=
  Relation.ReflTransGen.tail reach_exS1
    (Step.complete exS1 exRoot (.fail (strToChars "timeout")) (by decide))

theorem reach_exSQ1 : Reachable exCfgQ exSQ1 :=
  Relation.ReflTransGen.tail Relation.ReflTransGen.refl
    (Step.dispatch (initState exCfgQ) exRootQ (by decide) (by decide) (by decide) (by decide))

theorem reach_exSQ2 : Reachable exCfgQ exSQ2 :=
  Relation.ReflTransGen.tail reach_exSQ1
    (Step.complete exSQ1 exRootQ (.ok (some (strToChars "content")) (some []) []) (by decide))

theorem scenarioA_pending_empty (o : FetchOutcome) :
    (completeResult exCfg exS1 exRoot o).pending = [] := by
  simp [completeResult, exS1, dispatchResult, initState, exCfg, exRoot]

theorem scenarioA_inflight_empty (o : FetchOutcome) :
    (completeResult exCfg exS1 exRoot o).inflight = [] := by
  simp [completeResult, exS1, dispatchResult, initState]

theorem reach_scenarioA {s : CrawlState} (h : Reachable exCfg s) :
    s = initState exCfg ∨ s = exS1 ∨ ∃ o, s = completeResult exCfg exS1 exRoot o := by
  have h2 : Relation.ReflTransGen (Step exCfg) (initState exCfg) s := h
  clear h
  induction h2 with
  | refl => exact Or.inl rfl
  | tail hr hstep ih =>
    rcases ih with rfl | rfl | ⟨o, rfl⟩
    · cases hstep with
      | skip t hm hc =>
        have ht : t = exRoot := by
          rw [show (initState exCfg).pending = [exRoot] from rfl] at hm
          simpa using hm
        subst ht
        rcases hc with h1 | h1 | h1
        · exact absurd h1 (by decide)
        · exact absurd h1 (by simp [initState])
        · exact absurd h1 (by decide)
      | dispatch t hm hdep hnv hv =>
        have ht : t = exRoot := by
          rw [show (initState exCfg).pending = [exRoot] from rfl] at hm
          simpa using hm
        subst ht
        exact Or.inr (Or.inl rfl)
      | complete t o hm =>
        rw [show (initState exCfg).inflight = [] from rfl] at hm
        cases hm
    · cases hstep with
      | skip t hm hc =>
        rw [show exS1.pending = [] from rfl] at hm
        cases hm
      | dispatch t hm hdep hnv hv =>
        rw [show exS1.pending = [] from rfl] at hm
        cases hm
      | complete t o hm =>
        have ht : t = exRoot := by
          rw [show exS1.inflight = [exRoot] from rfl] at hm
          simpa using hm
        subst ht
        exact Or.inr (Or.inr ⟨o, rfl⟩)
    · cases hstep with
      | skip t hm hc =>
        rw [scenarioA_pending_empty o] at hm
        cases hm
      | dispatch t hm hdep hnv hv =>
        rw [scenarioA_pending_empty o] at hm
        cases hm
      | complete t o2 hm =>
        rw [scenarioA_inflight_empty o] at hm
        cases hm

/-- C5 (amended): a crawl rooted at `https://example.com/docs/` with max
depth 0 only ever dispatches the root target, follows no links, and
writes at most one file — named `docs.md`, not `index.md` — exactly when
the fetched content is nonempty. -/
theorem scenarioA_amended (s : CrawlState) (h : Reachable exCfg s) :
    (s.fetched = [] ∨ s.fetched = [exRoot]) ∧
    (s.saved = [] ∨ s.saved = [strToChars "docs.md"]) ∧
    (s.pending = [] ∨ s.pending = [exRoot]) ∧
    (s.inflight = [] ∨ s.inflight = [exRoot]) := by
  rcases reach_scenarioA h with rfl | rfl | ⟨o, rfl⟩
  · exact ⟨Or.inl rfl, Or.inl rfl, Or.inr rfl, Or.inl rfl⟩
  · exact ⟨Or.inr rfl, Or.inl rfl, Or.inl rfl, Or.inr rfl⟩
  · refine ⟨Or.inr rfl, ?_, Or.inl (scenarioA_pending_empty o),
      Or.inl (scenarioA_inflight_empty o)⟩
    simp only [completeResult]
    split
    · exact Or.inl rfl
    · exact Or.inr (by decide)

/-- C5 counterexample: the Scenario A run writes the file `docs.md`
(not `index.md` as claimed: the root's path `/docs/` strips to `docs`,
which is nonempty, so the `index` fallback does not apply), and when the
fetch yields empty content the run completes having written no file at
all (not exactly one regardless of content). -/
theorem scenarioA_counterexample :
    Reachable exCfg exS2 ∧ exS2.pending = [] ∧ exS2.inflight = [] ∧
    exS2.saved = [strToChars "docs.md"] ∧
    strToChars "docs.md" ≠ strToChars "index.md" ∧
    Reachable exCfg exS2e ∧ exS2e.pending = [] ∧ exS2e.inflight = [] ∧
    exS2e.saved = [] :=
  ⟨reach_exS2, by decide, by decide, by decide, by decide,
   reach_exS2e, by decide, by decide, by decide⟩

/-- Witness for C5: the concrete completed Scenario A run. -/
theorem scenarioA_amended_witness :
    Reachable exCfg exS2 ∧
    ((exS2.fetched = [] ∨ exS2.fetched = [exRoot]) ∧
     (exS2.saved = [] ∨ exS2.saved = [strToChars "docs.md"]) ∧
     (exS2.pending = [] ∨ exS2.pending = [exRoot]) ∧
     (exS2.inflight = [] ∨ exS2.inflight = [exRoot])) :=
  ⟨reach_exS2, scenarioA_amended exS2 reach_exS2⟩

/-- C6 counterexample: `allow_query` is false for this run, yet the
completed crawl of `https://example.com/docs/api?ver=2` wrote a file
whose name contains the query string — the filename deriver never
consults the query policy. -/
theorem query_filename_counterexample :
    exCfgQ.allow_query = false ∧
    Reachable exCfgQ exSQ2 ∧
    exSQ2.saved = [strToChars "docs-api--ver=2.md"] ∧
    containsSub (strToChars "ver=2") (strToChars "docs-api--ver=2.md") = true :=
  ⟨rfl, reach_exSQ2, by decide, by decide⟩

/-- Witness for C1: the concrete completed Scenario A run. -/
theorem crawl_no_duplicate_dispatch_witness :
    Reachable exCfg exS2 ∧
    ((exS2.fetched.map Target.url).Nodup ∧
     exS2.fetched.all (fun t => decide (t.url ∈ exS2.visited)) = true) :=
  ⟨reach_exS2, crawl_no_duplicate_dispatch exCfg exS2 reach_exS2⟩

/-- Witness for C2: the concrete completed query-carrying run. -/
theorem crawl_depth_bounded_witness :
    Reachable exCfgQ exSQ2 ∧
    (exSQ2.fetched.all (fun t => decide (t.depth ≤ exCfgQ.max_depth)) = true ∧
     exSQ2.pending.all (fun t => decide (t.depth ≤ exCfgQ.max_depth)) = true ∧
     exSQ2.inflight.all (fun t => decide (t.depth ≤ exCfgQ.max_depth)) = true) :=
  ⟨reach_exSQ2, crawl_depth_bounded exCfgQ exSQ2 reach_exSQ2⟩

/-- Witness for C3: a concrete failing fetch of the Scenario A root. -/
theorem fetch_failure_isolated_witness :
    isFailure (FetchOutcome.fail (strToChars "timeout")) = true ∧
    crawl_page exCfg exS1.visited (FetchOutcome.fail (strToChars "timeout")) exRoot.url
      = ([], []) ∧
    completeResult exCfg exS1 exRoot (FetchOutcome.fail (strToChars "timeout")) =
      CrawlState.mk exS1.visited exS1.fetched exS1.pending (exS1.inflight.erase exRoot)
        exS1.saved :=
  ⟨by decide,
   (fetch_failure_isolated exCfg exS1 exRoot (FetchOutcome.fail (strToChars "timeout"))
     (by decide)).1,
   (fetch_failure_isolated exCfg exS1 exRoot (FetchOutcome.fail (strToChars "timeout"))
     (by decide)).2.1⟩

end Crawl
